import Mathlib

/-!
# Verification of the fuzzydiff hunk extractor and selection pipeline

Shallow embedding of `src/fuzzydiff.py`.  Lines are modelled as `List Char`
(the content of a Python `str`); lines produced by `readlines` never contain
an interior newline, though the model is total on all character lists.
Python regular-expression classes `\s` and `\d` are modelled by their ASCII
subsets (the inputs at issue are ASCII).  Machine-level file IO is modelled
by keeping each hunk body (the text written to the per-hunk blob) inside
the emitted `Entry` record; the blob content is the body joined by newlines,
exactly as `flush_hunk` writes it.
-/

namespace Fuzzydiff

/-- A line of text, as a list of characters. -/
abbrev Line := List Char

/-- ASCII subset of the Python regex class `\s` (and of `str.strip`). -/
def isPySpace (c : Char) : Bool :=
  c == ' ' || c == '\t' || c == '\n' || c == '\x0d' ||
  c == '\x0b' || c == '\x0c'

/-- Python `line.rstrip(chr 10)`: drop every trailing newline character. -/
def rstripNl (l : Line) : Line :=
  (l.reverse.dropWhile (fun c => c == '\n')).reverse

/-- Python `s.strip()` restricted to ASCII whitespace: drop leading and
trailing whitespace. -/
def pyStrip (l : Line) : Line :=
  ((l.dropWhile isPySpace).reverse.dropWhile isPySpace).reverse

/-- Match one or more characters satisfying `p` (regex `p+`, maximal munch);
returns the matched run and the rest, or `none` when the first character
fails `p`. -/
def munch1 (p : Char → Bool) : Line → Option (Line × Line)
  | [] => none
  | c :: cs =>
    if p c then some (c :: cs.takeWhile p, cs.dropWhile p) else none

/-- The optional `(?:,\d+)?` part of the hunk pattern: consume a comma
followed by a digit run when present, otherwise consume nothing. -/
def optCount : Line → Line
  | ',' :: r4 =>
    match munch1 Char.isDigit r4 with
    | none => ',' :: r4
    | some (_, r5) => r5
  | r3 => r3

/-- The trailing `\s+\+(\d+)` part of the hunk pattern, returning the
captured digit group. -/
def hunkTail (l : Line) : Option Line :=
  match munch1 isPySpace l with
  | none => none
  | some (_, r7) =>
    match r7 with
    | '+' :: r8 =>
      match munch1 Char.isDigit r8 with
      | none => none
      | some (g, _) => some g
    | _ => none

/-- The regex `^@@\s+-\d+(?:,\d+)?\s+\+(\d+)` of `pattern_hunk`
(line 26 of the source), returning group 1 (the new-file start line digits)
when the line matches.  Greedy maximal munch is equivalent to the
backtracking search for this pattern, since each repeated class is disjoint
from the character that must follow it. -/
def hunkMatch : Line → Option Line
  | '@' :: '@' :: rest =>
    match munch1 isPySpace rest with
    | none => none
    | some (_, r1) =>
      match r1 with
      | '-' :: r2 =>
        match munch1 Char.isDigit r2 with
        | none => none
        | some (_, r3) => hunkTail (optCount r3)
      | _ => none
  | _ => none

/-- The regex `^\+\+\+\s+(.*)` of `pattern_git_file` (line 24), returning
group 1: the rest of the line after the maximal whitespace run following
`+++`. -/
def gitFileMatch : Line → Option Line
  | '+' :: '+' :: '+' :: rest =>
    match rest with
    | c :: _ => if isPySpace c then some (rest.dropWhile isPySpace) else none
    | [] => none
  | _ => none

/-- The regex `^Index:\s+(.*)` of `pattern_index_file` (line 25). -/
def indexFileMatch : Line → Option Line
  | 'I' :: 'n' :: 'd' :: 'e' :: 'x' :: ':' :: rest =>
    match rest with
    | c :: _ => if isPySpace c then some (rest.dropWhile isPySpace) else none
    | [] => none
  | _ => none

/-- The guard on line 46 of the source:
`line.startswith("+++ ") or line.startswith("Index: ")`. -/
def isFileHeaderLine : Line → Bool
  | '+' :: '+' :: '+' :: ' ' :: _ => true
  | 'I' :: 'n' :: 'd' :: 'e' :: 'x' :: ':' :: ' ' :: _ => true
  | _ => false

/-- Lines 52 and 53 of the source: when the path starts with `a/` or `b/`,
keep everything from index 2 on. -/
def stripAB : Line → Line
  | 'a' :: '/' :: rest => rest
  | 'b' :: '/' :: rest => rest
  | p => p

/-- The value assigned to `current_file` when the file-header branch of
`parse_diff` handles line `l` (lines 48 to 58 of the source): the git
pattern is tried first, then the Index pattern. -/
def fileHeaderPath (l : Line) : Option Line :=
  match gitFileMatch l with
  | some p => some (stripAB p)
  | none => indexFileMatch l

/-- One emitted hunk record.  The Python code emits the tab-separated
string rendered by `renderEntry` below and writes `joinNl body` to the
blob file; this record keeps the captured fields. -/
structure Entry where
  id : Nat
  file : Line
  startLine : Line
  header : Line
  body : List Line
deriving DecidableEq, Repr

/-- The mutable parse state of `parse_diff` (lines 16 to 21). -/
structure PState where
  currentFile : Option Line
  hunkBlock : List Line
  hunkStartLine : Option Line
  hunkHeader : Option Line
  hunkId : Nat
  entries : List Entry
deriving DecidableEq, Repr

/-- Initial state of `parse_diff`. -/
def initState : PState :=
  { currentFile := none, hunkBlock := [], hunkStartLine := none,
    hunkHeader := none, hunkId := 0, entries := [] }

/-- Python truthiness of an optional string. -/
def truthyOpt : Option Line → Bool
  | none => false
  | some l => !l.isEmpty

/-- `flush_hunk` (lines 28 to 40 of the source).  The guard is
`hunk_block and current_file and hunk_start_line is not None and
hunk_header`; when it fails the function does nothing at all: no field is
cleared and nothing is emitted. -/
def flushHunk (s : PState) : PState :=
  match s.currentFile, s.hunkStartLine, s.hunkHeader with
  | some cf, some sl, some hh =>
    if s.hunkBlock ≠ [] ∧ cf ≠ [] ∧ hh ≠ [] then
      { currentFile := s.currentFile
        hunkBlock := []
        hunkStartLine := none
        hunkHeader := none
        hunkId := s.hunkId + 1
        entries := s.entries ++ [⟨s.hunkId, cf, sl, hh, s.hunkBlock⟩] }
    else s
  | _, _, _ => s

/-- Lines 63 to 66 of the source: open a new pending hunk on header line
`l` with captured start-line digits `g` (run after the flush). -/
def openHunk (s : PState) (l : Line) (g : Line) : PState :=
  { s with hunkStartLine := some g, hunkHeader := some l,
           hunkBlock := s.hunkBlock ++ [l] }

/-- Lines 69 to 71 of the source: append `l` to the block when one is
open, otherwise discard the line. -/
def appendLine (s : PState) (l : Line) : PState :=
  if s.hunkBlock.isEmpty then s else { s with hunkBlock := s.hunkBlock ++ [l] }

/-- Lines 60 to 71 of the source: the part of the loop body after the
file-header branch. -/
def stepTail (s : PState) (l : Line) : PState :=
  match hunkMatch l with
  | some g => openHunk (flushHunk s) l g
  | none => appendLine s l

/-- One iteration of the loop of `parse_diff` (lines 42 to 71) on a raw
input line.  When the file-header guard fires but neither file pattern
matches (which cannot happen, see `fileHeader_match`), control falls
through to the hunk-header check with the flush already performed, exactly
as in the Python code. -/
def step (s : PState) (raw : Line) : PState :=
  let line := rstripNl raw
  if isFileHeaderLine line then
    let sf := flushHunk s
    match gitFileMatch line with
    | some p => { sf with currentFile := some (stripAB p) }
    | none =>
      match indexFileMatch line with
      | some p => { sf with currentFile := some p }
      | none => stepTail sf line
  else stepTail s line

/-- The loop of `parse_diff` over all input lines. -/
def runLines (s : PState) (ls : List Line) : PState :=
  ls.foldl step s

/-- `parse_diff` (lines 9 to 74): run the loop from the initial state,
perform the final flush, and return the emitted entries. -/
def parseDiff (lines : List Line) : List Entry :=
  (flushHunk (runLines initState lines)).entries

/-- Fuel-based helper for `natChars`; the fuel is structural so the kernel
can evaluate it. -/
def natCharsAux : Nat → Nat → List Char
  | 0, _ => []
  | fuel + 1, n =>
    if n < 10 then [Nat.digitChar n]
    else natCharsAux fuel (n / 10) ++ [Nat.digitChar (n % 10)]

/-- Decimal digits of a natural number, as `str` renders a nonnegative
`int` in the f-string on line 35. -/
def natChars (n : Nat) : List Char :=
  natCharsAux (n + 1) n

/-- Join a list of lines with newline characters, as
`chr10.join(hunk_block)` on line 33: the blob content of a hunk. -/
def joinNl : List Line → Line
  | [] => []
  | [l] => l
  | l :: ls => l ++ '\n' :: joinNl ls

/-- The tab-separated entry string built on line 35 of the source,
including the temp-file path `temp_dir/<id>.txt` built on line 31. -/
def renderEntry (tempDir : Line) (e : Entry) : Line :=
  natChars e.id ++ '\t' :: e.file ++ ':' :: e.startLine ++
  '\t' :: e.header ++ '\t' :: tempDir ++ '/' :: natChars e.id ++ ".txt".data


/-- Python `s.split(sep)` for a one-character separator: the result is
always nonempty and splitting the empty string gives one empty field. -/
def splitOnChar (sep : Char) : Line → List Line
  | [] => [[]]
  | c :: cs =>
    if c == sep then [] :: splitOnChar sep cs
    else
      match splitOnChar sep cs with
      | [] => [[c]]
      | g :: gs => (c :: g) :: gs

/-- Python `s.split(c, 1)` unpacked into two parts: split at the first
occurrence of the separator, `none` when the separator is absent (in which
case the two-variable unpacking on line 148 raises `ValueError`). -/
def splitFirstColon : Line → Option (Line × Line)
  | [] => none
  | c :: cs =>
    if c == ':' then some ([], cs)
    else (splitFirstColon cs).map (fun p => (c :: p.1, p.2))

/-- Shape automaton for the digit part of a Python `int` literal:
`digit+ (underscore digit+)*`.  State `st` is true after a digit, false
at the start or after an underscore. -/
def pyDigitShape : Line → Bool → Bool
  | [], st => st
  | c :: cs, st =>
    if c.isDigit then pyDigitShape cs true
    else if c == '_' then st && pyDigitShape cs false
    else false

/-- Decimal value of a digit string. -/
def digitsVal (l : Line) : Nat :=
  l.foldl (fun a c => a * 10 + (c.toNat - 48)) 0

/-- Python `int(s)` on ASCII input: strip whitespace, one optional sign,
then digits with single underscores between digit groups. -/
def pyInt (l : Line) : Option Int :=
  let t := pyStrip l
  match t with
  | '+' :: r =>
    if pyDigitShape r false then some (Int.ofNat (digitsVal (r.filter Char.isDigit))) else none
  | '-' :: r =>
    if pyDigitShape r false then some (-(Int.ofNat (digitsVal (r.filter Char.isDigit)))) else none
  | r =>
    if pyDigitShape r false then some (Int.ofNat (digitsVal (r.filter Char.isDigit))) else none

/-- Outcome of `main` after a non-empty selection line comes back from the
Selector (lines 142 to 154 of the source): either the Navigator is invoked
with a file path and a line number (and the process exits 0), or the
offending selection text is reported and the process exits 1. -/
inductive SelOutcome where
  | nav : Line → Int → SelOutcome
  | err : Line → SelOutcome
deriving DecidableEq, Repr

/-- Exit code of the process for each selection outcome. -/
def selExitCode : SelOutcome → Nat
  | .nav _ _ => 0
  | .err _ => 1

/-- Lines 143 to 154 of the source: split the selected line on tabs,
require at least two fields, split the second field at its first colon,
parse the remainder as an integer; on any `ValueError` report the
offending text and exit non-zero, otherwise invoke the editor. -/
def processSelection (sel : Line) : SelOutcome :=
  let parts := splitOnChar '\t' sel
  match parts with
  | _ :: fileLine :: _ =>
    match splitFirstColon fileLine with
    | none => .err sel
    | some (fp, lineStr) =>
      match pyInt lineStr with
      | none => .err sel
      | some n => .nav fp n
  | _ => .err sel

/-- What `fuzzy_select` hands back to `main` when the user picks line
`picked`: fzf prints the picked line followed by a newline and line 108
of the source applies `strip()`. -/
def selectorReturn (picked : Line) : Line :=
  pyStrip (picked ++ ['\n'])

/-- `open_in_editor` (lines 111 to 117): the argument vector passed to the
editor subprocess, `[editor, plus-line-number, filepath]`. -/
def openInEditor (editor : Line) (filepath : Line) (lineNumber : Int) : List Line :=
  [editor, '+' :: (if lineNumber < 0 then '-' :: natChars lineNumber.natAbs
                   else natChars lineNumber.natAbs), filepath]

/-- Convenience for writing concrete lines. -/
def lineOf (s : String) : Line := s.data

/-- Emit the currently open slice, if any. -/
def emitCur : Option (List Line) → List (List Line)
  | none => []
  | some b => [b]

/-- Spec-side definition for the round-trip claim, following the claim
wording and not the code: walking the (newline-stripped) input, each slice
runs from a hunk header line up to but not including the next file header,
the next hunk header, or the end of input; lines outside every slice are
dropped. -/
def specSlices : List Line → Option (List Line) → List (List Line)
  | [], cur => emitCur cur
  | raw :: ls, cur =>
    let l := rstripNl raw
    if isFileHeaderLine l then emitCur cur ++ specSlices ls none
    else
      match hunkMatch l with
      | some _ => emitCur cur ++ specSlices ls (some [l])
      | none =>
        match cur with
        | some b => specSlices ls (some (b ++ [l]))
        | none => specSlices ls none

/-- Input discipline under which every flush attempt on a non-empty block
succeeds: every file header in the input carries a non-empty path (after
prefix stripping) and every hunk header is preceded by some file header.
The flag records whether a file header has been seen. -/
def goodLines : Bool → List Line → Bool
  | _, [] => true
  | seen, raw :: ls =>
    let l := rstripNl raw
    if isFileHeaderLine l then
      (match fileHeaderPath l with
       | some p => !p.isEmpty
       | none => false) && goodLines true ls
    else
      match hunkMatch l with
      | some _ => seen && goodLines seen ls
      | none => goodLines seen ls

/-- Well-formedness of an emitted entry: non-empty file path, start-line
digits equal to group 1 of the hunk pattern applied to the stored header,
and a non-empty body. -/
def EntryWF (e : Entry) : Prop :=
  e.file ≠ [] ∧ hunkMatch e.header = some e.startLine ∧ e.body ≠ []

/-- Relation between the parser state and the spec-side slice walk used in
the round-trip proof: the open block mirrors the open slice, the pending
header and start line are present exactly when a block is open, a seen
file header guarantees a truthy current file, and an open block implies a
file header has been seen. -/
def SliceRel (s : PState) (seen : Bool) (cur : Option (List Line)) : Prop :=
  (match cur with
   | none => s.hunkBlock = [] ∧ s.hunkStartLine = none ∧ s.hunkHeader = none
   | some b =>
     s.hunkBlock = b ∧ b ≠ [] ∧ s.hunkStartLine.isSome = true ∧
     ∃ hh, s.hunkHeader = some hh ∧ hh ≠ []) ∧
  (seen = true → truthyOpt s.currentFile = true) ∧
  (cur.isSome = true → seen = true)

/-! ## Basic lemmas about the matchers -/

theorem munch1_some {p : Char → Bool} {l g r : Line}
    (h : munch1 p l = some (g, r)) :
    g ≠ [] ∧ (∀ c ∈ g, p c = true) := by
  cases l with
  | nil => simp [munch1] at h
  | cons c cs =>
    by_cases hc : p c
    · simp only [munch1, hc, if_pos, Option.some.injEq, Prod.mk.injEq] at h
      obtain ⟨hg, _⟩ := h
      subst hg
      refine ⟨by simp, ?_⟩
      intro x hx
      rcases List.mem_cons.mp hx with hx | hx
      · exact hx ▸ hc
      · exact List.mem_takeWhile_imp hx
    · simp [munch1, hc] at h

theorem hunkTail_digits {l g : Line} (h : hunkTail l = some g) :
    g ≠ [] ∧ (∀ c ∈ g, c.isDigit = true) := by
  unfold hunkTail at h
  repeat' split at h
  all_goals simp_all
  next hm => exact munch1_some hm

theorem hunkMatch_digits {l g : Line} (h : hunkMatch l = some g) :
    g ≠ [] ∧ (∀ c ∈ g, c.isDigit = true) := by
  unfold hunkMatch at h
  repeat' split at h
  all_goals first
    | exact hunkTail_digits h
    | simp_all

theorem hunkMatch_shape {l g : Line} (h : hunkMatch l = some g) :
    ∃ rest, l = '@' :: '@' :: rest := by
  unfold hunkMatch at h
  split at h
  · exact ⟨_, rfl⟩
  · exact absurd h (by simp)

theorem fileHeader_match {l : Line} (h : isFileHeaderLine l = true) :
    ∃ p, fileHeaderPath l = some p := by
  unfold isFileHeaderLine at h
  split at h
  · next t =>
      refine ⟨stripAB ((' ' :: t).dropWhile isPySpace), ?_⟩
      simp [fileHeaderPath, gitFileMatch, isPySpace]
  · next t =>
      refine ⟨(' ' :: t).dropWhile isPySpace, ?_⟩
      simp [fileHeaderPath, gitFileMatch, indexFileMatch, isPySpace]
  · exact absurd h (by simp)

/-- Case analysis on one loop iteration: a file-header line flushes and
resets the current file; otherwise a hunk-header line flushes and opens a
new block; otherwise the line is appended to an open block or dropped. -/
theorem step_cases (s : PState) (raw : Line) :
    (∃ p, isFileHeaderLine (rstripNl raw) = true ∧
      fileHeaderPath (rstripNl raw) = some p ∧
      step s raw = { flushHunk s with currentFile := some p }) ∨
    (∃ g, isFileHeaderLine (rstripNl raw) = false ∧
      hunkMatch (rstripNl raw) = some g ∧
      step s raw = openHunk (flushHunk s) (rstripNl raw) g) ∨
    (isFileHeaderLine (rstripNl raw) = false ∧
      hunkMatch (rstripNl raw) = none ∧
      step s raw = appendLine s (rstripNl raw)) := by
  by_cases hf : isFileHeaderLine (rstripNl raw) = true
  · left
    cases hg : gitFileMatch (rstripNl raw) with
    | some q =>
      refine ⟨stripAB q, hf, ?_, ?_⟩
      · unfold fileHeaderPath; rw [hg]
      · simp only [step, hf, if_true, hg]
    | none =>
      cases hi : indexFileMatch (rstripNl raw) with
      | some q =>
        refine ⟨q, hf, ?_, ?_⟩
        · unfold fileHeaderPath; rw [hg, hi]
        · simp only [step, hf, if_true, hg, hi]
      | none =>
        exfalso
        obtain ⟨p, hp⟩ := fileHeader_match hf
        unfold fileHeaderPath at hp
        rw [hg, hi] at hp
        exact Option.noConfusion hp
  · have hf' : isFileHeaderLine (rstripNl raw) = false := by
      revert hf; cases isFileHeaderLine (rstripNl raw) <;> simp
    cases hm : hunkMatch (rstripNl raw) with
    | some g =>
      right; left
      refine ⟨g, hf', rfl, ?_⟩
      simp only [step, hf', Bool.false_eq_true, if_false, stepTail, hm]
    | none =>
      right; right
      refine ⟨hf', rfl, ?_⟩
      simp only [step, hf', Bool.false_eq_true, if_false, stepTail, hm]

/-! ## Claim C1: behaviour of a failed flush -/

/-- Claim C1, counterexample.  On the input
`@@ -1,1 +2,2 @@` / `ctx` / `+++ b/foo` / `more`, the flush attempted at
the `+++` header line is missing a file path; the claim says the pending
hunk is then discarded, but the code retains it: the accumulated body line
`ctx`, the pending header and the pending start line all survive into the
single Hunk emitted at end of input, whose body even continues with `more`.
-/
theorem c1_counterexample :
    parseDiff [lineOf "@@ -1,1 +2,2 @@", lineOf "ctx", lineOf "+++ b/foo",
               lineOf "more"] =
      [⟨0, lineOf "foo", lineOf "2", lineOf "@@ -1,1 +2,2 @@",
        [lineOf "@@ -1,1 +2,2 @@", lineOf "ctx", lineOf "more"]⟩] ∧
    ∃ e ∈ parseDiff [lineOf "@@ -1,1 +2,2 @@", lineOf "ctx",
                     lineOf "+++ b/foo", lineOf "more"],
      lineOf "ctx" ∈ e.body ∧ e.header = lineOf "@@ -1,1 +2,2 @@" ∧
      e.startLine = lineOf "2" := by decide

/-- Claim C1 (amended): a flush attempted while any of the four required
components (non-empty block, truthy current file, pending start line,
truthy pending header) is missing is a no-op: nothing is emitted, and the
accumulated body lines, pending header and pending start line are all
retained unchanged in the parse state (so they may be emitted by a later
successful flush). -/
theorem c1_flush_noop (s : PState)
    (h : s.hunkBlock = [] ∨ truthyOpt s.currentFile = false ∨
         s.hunkStartLine = none ∨ truthyOpt s.hunkHeader = false) :
    flushHunk s = s := by
  rcases s with ⟨cf, blk, sl, hh, i, es⟩
  rcases cf with _ | cf <;> rcases sl with _ | sl <;> rcases hh with _ | hh <;>
    simp only [flushHunk] <;> try rfl
  rw [if_neg]
  rcases h with h | h | h | h
  · exact fun hc => hc.1 h
  · intro hc
    apply hc.2.1
    simpa [truthyOpt, List.isEmpty_iff] using h
  · exact absurd h (by simp)
  · intro hc
    apply hc.2.2
    simpa [truthyOpt, List.isEmpty_iff] using h

/-- Witness for `c1_flush_noop` at a concrete state missing its file. -/
theorem c1_flush_noop_witness :
    flushHunk ⟨none, [lineOf "x"], some (lineOf "2"), some (lineOf "@@"), 0, []⟩ =
      ⟨none, [lineOf "x"], some (lineOf "2"), some (lineOf "@@"), 0, []⟩ :=
  c1_flush_noop _ (Or.inr (Or.inl rfl))

/-! ## Claim C6: consecutive hunk headers -/

/-- Claim C6, counterexample: the input consisting of exactly the two hunk
header lines has no file header, so no flush ever succeeds and the claimed
two Hunks are not produced: the extractor returns the empty list. -/
theorem c6_counterexample :
    parseDiff [lineOf "@@ -1,1 +1,1 @@", lineOf "@@ -5,1 +5,1 @@"] = [] ∧
    (parseDiff [lineOf "@@ -1,1 +1,1 @@", lineOf "@@ -5,1 +5,1 @@"]).length ≠ 2 := by
  decide

/-- Claim C6 (amended): once a file header precedes them, the two
consecutive hunk headers with no content lines between them yield two
Hunks, each with a one-line body containing only its own header line. -/
theorem c6_consecutive_hunk_headers :
    parseDiff [lineOf "+++ b/f", lineOf "@@ -1,1 +1,1 @@",
               lineOf "@@ -5,1 +5,1 @@"] =
      [⟨0, lineOf "f", lineOf "1", lineOf "@@ -1,1 +1,1 @@",
        [lineOf "@@ -1,1 +1,1 @@"]⟩,
       ⟨1, lineOf "f", lineOf "5", lineOf "@@ -5,1 +5,1 @@",
        [lineOf "@@ -5,1 +5,1 @@"]⟩] := by decide

/-! ## Claim C7: git header example -/

/-- Claim C7: `+++ b/src/foo.go`, then `@@ -1,3 +10,4 @@`, then four
content lines yield exactly one Hunk with file path `src/foo.go` (the
`b/` prefix stripped), start line 10, and a five-line body consisting of
the header line followed by the four content lines. -/
theorem c7_git_header_example :
    parseDiff [lineOf "+++ b/src/foo.go", lineOf "@@ -1,3 +10,4 @@",
               lineOf " ctx1", lineOf "-old", lineOf "+new", lineOf " ctx2"] =
      [⟨0, lineOf "src/foo.go", lineOf "10", lineOf "@@ -1,3 +10,4 @@",
        [lineOf "@@ -1,3 +10,4 @@", lineOf " ctx1", lineOf "-old",
         lineOf "+new", lineOf " ctx2"]⟩] ∧
    digitsVal (lineOf "10") = 10 ∧
    (parseDiff [lineOf "+++ b/src/foo.go", lineOf "@@ -1,3 +10,4 @@",
                lineOf " ctx1", lineOf "-old", lineOf "+new",
                lineOf " ctx2"]).length = 1 := by decide

/-! ## Claim C9: start line value -/

/-- Claim C9, counterexample: the header `@@ -1,3 +0,0 @@` (a legal
deletion hunk header) is matched with new-start group `0`, so the emitted
Hunk has start line 0, which is not strictly positive. -/
theorem c9_counterexample :
    (parseDiff [lineOf "+++ b/f", lineOf "@@ -1,3 +0,0 @@"]).map Entry.startLine =
      [lineOf "0"] ∧
    ∃ e ∈ parseDiff [lineOf "+++ b/f", lineOf "@@ -1,3 +0,0 @@"],
      ¬ 0 < digitsVal e.startLine := by decide

/-! ## Flush helper lemmas -/

theorem flushHunk_block_empty {s : PState} (h : s.hunkBlock = []) :
    flushHunk s = s := by
  rcases s with ⟨cf, blk, sl, hh, i, es⟩
  rcases cf with _ | cf <;> rcases sl with _ | sl <;> rcases hh with _ | hh <;>
    simp only [flushHunk] <;> try rfl
  rw [if_neg]
  intro hc
  exact hc.1 h

theorem flushHunk_cf_nil {s : PState} (h : s.currentFile = some []) :
    flushHunk s = s := by
  rcases s with ⟨cf, blk, sl, hh, i, es⟩
  rcases cf with _ | cf <;> rcases sl with _ | sl <;> rcases hh with _ | hh <;>
    simp only [flushHunk] <;> try rfl
  rw [if_neg]
  intro hc
  apply hc.2.1
  injection h

/-! ## Well-formedness of emitted entries -/

theorem flush_wf {s : PState}
    (he : ∀ e ∈ s.entries, EntryWF e)
    (hp : ∀ hh sl, s.hunkHeader = some hh → s.hunkStartLine = some sl →
          hunkMatch hh = some sl) :
    (∀ e ∈ (flushHunk s).entries, EntryWF e) ∧
    (∀ hh sl, (flushHunk s).hunkHeader = some hh →
       (flushHunk s).hunkStartLine = some sl → hunkMatch hh = some sl) := by
  rcases s with ⟨cf, blk, sl, hh, i, es⟩
  rcases cf with _ | cf <;> rcases sl with _ | sl <;> rcases hh with _ | hh <;>
    simp only [flushHunk] <;> try exact ⟨he, hp⟩
  split
  · next hc =>
      constructor
      · intro e hmem
        simp only at hmem
        rcases List.mem_append.mp hmem with hm | hm
        · exact he e hm
        · rcases List.mem_singleton.mp hm with rfl
          exact ⟨hc.2.1, hp _ _ rfl rfl, hc.1⟩
      · intro hh2 sl2 h1
        exact absurd h1 (by simp)
  · exact ⟨he, hp⟩

theorem step_wf {s : PState} (raw : Line)
    (he : ∀ e ∈ s.entries, EntryWF e)
    (hp : ∀ hh sl, s.hunkHeader = some hh → s.hunkStartLine = some sl →
          hunkMatch hh = some sl) :
    (∀ e ∈ (step s raw).entries, EntryWF e) ∧
    (∀ hh sl, (step s raw).hunkHeader = some hh →
       (step s raw).hunkStartLine = some sl → hunkMatch hh = some sl) := by
  rcases step_cases s raw with ⟨p, _, _, hstep⟩ | ⟨g, _, hm, hstep⟩ |
    ⟨_, _, hstep⟩ <;> rw [hstep]
  · obtain ⟨h1, h2⟩ := flush_wf he hp
    exact ⟨h1, h2⟩
  · obtain ⟨h1, _⟩ := flush_wf he hp
    refine ⟨h1, ?_⟩
    intro hh2 sl2 e1 e2
    simp only [openHunk] at e1 e2
    injection e1 with e1
    injection e2 with e2
    rw [← e1, ← e2]
    exact hm
  · unfold appendLine
    split
    · exact ⟨he, hp⟩
    · exact ⟨he, hp⟩

theorem run_wf (ls : List Line) (s : PState)
    (he : ∀ e ∈ s.entries, EntryWF e)
    (hp : ∀ hh sl, s.hunkHeader = some hh → s.hunkStartLine = some sl →
          hunkMatch hh = some sl) :
    (∀ e ∈ (runLines s ls).entries, EntryWF e) ∧
    (∀ hh sl, (runLines s ls).hunkHeader = some hh →
       (runLines s ls).hunkStartLine = some sl → hunkMatch hh = some sl) := by
  induction ls generalizing s with
  | nil => exact ⟨he, hp⟩
  | cons l ls ih =>
    obtain ⟨h1, h2⟩ := step_wf l he hp
    exact ih (step s l) h1 h2

/-- Every entry returned by `parseDiff` is well-formed. -/
theorem parseDiff_wf (lines : List Line) :
    ∀ e ∈ parseDiff lines, EntryWF e := by
  obtain ⟨h1, h2⟩ := run_wf lines initState (by simp [initState])
    (by intro hh sl h _; exact absurd h (by simp [initState]))
  exact (flush_wf h1 h2).1

/-- Claim C9 (amended): every emitted Hunk's start line is the digit group
following `+` in that hunk's `@@` header line: a non-empty all-digit
string, hence a nonnegative integer, but (see `c9_counterexample`) not
necessarily strictly positive. -/
theorem c9_start_digits (lines : List Line) (e : Entry)
    (h : e ∈ parseDiff lines) :
    hunkMatch e.header = some e.startLine ∧ e.startLine ≠ [] ∧
    (∀ c ∈ e.startLine, c.isDigit = true) := by
  obtain ⟨_, h2, _⟩ := parseDiff_wf lines e h
  obtain ⟨hne, hdig⟩ := hunkMatch_digits h2
  exact ⟨h2, hne, hdig⟩

/-- Witness for `c9_start_digits` on the claim C7 example input. -/
theorem c9_witness :
    hunkMatch (lineOf "@@ -1,3 +10,4 @@") = some (lineOf "10") ∧
    lineOf "10" ≠ [] ∧ (∀ c ∈ lineOf "10", c.isDigit = true) :=
  c9_start_digits [lineOf "+++ b/src/foo.go", lineOf "@@ -1,3 +10,4 @@"]
    ⟨0, lineOf "src/foo.go", lineOf "10", lineOf "@@ -1,3 +10,4 @@",
     [lineOf "@@ -1,3 +10,4 @@"]⟩ (by decide)

/-! ## Claim C5: sequential ids -/

theorem flush_ids {s : PState}
    (h : s.entries.map Entry.id = List.range s.hunkId) :
    (flushHunk s).entries.map Entry.id = List.range (flushHunk s).hunkId := by
  rcases s with ⟨cf, blk, sl, hh, i, es⟩
  rcases cf with _ | cf <;> rcases sl with _ | sl <;> rcases hh with _ | hh <;>
    simp only [flushHunk] <;> try exact h
  split
  · simp only at h ⊢
    simp [h, List.range_succ]
  · exact h

theorem step_ids {s : PState} (raw : Line)
    (h : s.entries.map Entry.id = List.range s.hunkId) :
    (step s raw).entries.map Entry.id = List.range (step s raw).hunkId := by
  rcases step_cases s raw with ⟨p, _, _, hstep⟩ | ⟨g, _, hm, hstep⟩ |
    ⟨_, _, hstep⟩ <;> rw [hstep]
  · exact flush_ids h
  · exact flush_ids h
  · unfold appendLine
    split
    · exact h
    · exact h

theorem run_ids (ls : List Line) (s : PState)
    (h : s.entries.map Entry.id = List.range s.hunkId) :
    (runLines s ls).entries.map Entry.id = List.range (runLines s ls).hunkId := by
  induction ls generalizing s with
  | nil => exact h
  | cons l ls ih => exact ih (step s l) (step_ids l h)

/-- Claim C5: the ids of the emitted Hunk list are exactly
`0, 1, ..., n-1` in emission order, with no gaps and no reuse. -/
theorem c5_ids_sequential (lines : List Line) :
    (parseDiff lines).map Entry.id = List.range (parseDiff lines).length := by
  have h : (flushHunk (runLines initState lines)).entries.map Entry.id =
      List.range (flushHunk (runLines initState lines)).hunkId :=
    flush_ids (run_ids lines initState (by simp [initState]))
  have hlen2 : (flushHunk (runLines initState lines)).hunkId =
      (flushHunk (runLines initState lines)).entries.length := by
    have := congrArg List.length h
    simpa using this.symm
  simp only [parseDiff]
  rw [h, hlen2]

/-! ## Claim C8: totality and boundedness -/

theorem flush_size (s : PState) :
    (flushHunk s).entries.length +
      (if (flushHunk s).hunkBlock = [] then 0 else 1) ≤
    s.entries.length + (if s.hunkBlock = [] then 0 else 1) := by
  rcases s with ⟨cf, blk, sl, hh, i, es⟩
  rcases cf with _ | cf <;> rcases sl with _ | sl <;> rcases hh with _ | hh <;>
    simp only [flushHunk] <;> try exact Nat.le_refl _
  split
  · next hc =>
      simp [hc.1]
  · exact Nat.le_refl _

theorem step_size (s : PState) (raw : Line) :
    (step s raw).entries.length +
      (if (step s raw).hunkBlock = [] then 0 else 1) ≤
    s.entries.length + (if s.hunkBlock = [] then 0 else 1) + 1 := by
  rcases step_cases s raw with ⟨p, _, _, hstep⟩ | ⟨g, _, hm, hstep⟩ |
    ⟨_, _, hstep⟩ <;> rw [hstep]
  · have := flush_size s
    simp only
    omega
  · have := flush_size s
    unfold openHunk
    simp only
    rw [if_neg (by simp)]
    omega
  · unfold appendLine
    split
    · omega
    · next hne =>
        simp only
        rw [if_neg (by simp), if_neg (by simpa [List.isEmpty_iff] using hne)]
        omega

theorem run_size (ls : List Line) (s : PState) :
    (runLines s ls).entries.length +
      (if (runLines s ls).hunkBlock = [] then 0 else 1) ≤
    s.entries.length + (if s.hunkBlock = [] then 0 else 1) + ls.length := by
  induction ls generalizing s with
  | nil => exact Nat.le_refl _
  | cons l ls ih =>
    have h1 := ih (step s l)
    have h2 := step_size s l
    simp only [runLines, List.foldl_cons] at h1 ⊢
    simp only [List.length_cons]
    omega

theorem run_no_hunks (ls : List Line) (s : PState)
    (hno : ∀ l ∈ ls, hunkMatch (rstripNl l) = none)
    (hb : s.hunkBlock = []) (he : s.entries = []) :
    (runLines s ls).hunkBlock = [] ∧ (runLines s ls).entries = [] := by
  induction ls generalizing s with
  | nil => exact ⟨hb, he⟩
  | cons l ls ih =>
    have hl := hno l (List.mem_cons_self l ls)
    have hrest : ∀ x ∈ ls, hunkMatch (rstripNl x) = none :=
      fun x hx => hno x (List.mem_cons_of_mem l hx)
    rcases step_cases s l with ⟨p, _, _, hstep⟩ | ⟨g, _, hm, hstep⟩ |
      ⟨_, _, hstep⟩
    · have hfl : flushHunk s = s := flushHunk_block_empty hb
      simp only [runLines, List.foldl_cons]
      rw [hstep, hfl]
      exact ih { s with currentFile := some p } hrest hb he
    · rw [hm] at hl
      exact absurd hl (by simp)
    · simp only [runLines, List.foldl_cons]
      rw [hstep]
      unfold appendLine
      rw [if_pos (by simpa [List.isEmpty_iff] using hb)]
      exact ih s hrest hb he

/-- Claim C8: on every finite input the extractor terminates with a
well-defined list of at most one entry per input line (it is a total
function of the input, so it never raises), and an input with no hunk
header line yields the empty list. -/
theorem c8_total_and_bounded (lines : List Line) :
    (parseDiff lines).length ≤ lines.length ∧
    ((∀ l ∈ lines, hunkMatch (rstripNl l) = none) → parseDiff lines = []) := by
  constructor
  · have h1 := flush_size (runLines initState lines)
    have h2 : (runLines initState lines).entries.length +
        (if (runLines initState lines).hunkBlock = [] then 0 else 1) ≤
        0 + 0 + lines.length := run_size lines initState
    simp only [parseDiff]
    omega
  · intro hno
    obtain ⟨hb, he⟩ := run_no_hunks lines initState hno rfl rfl
    simp only [parseDiff]
    rw [flushHunk_block_empty hb]
    exact he

/-- Witness for `c8_total_and_bounded` on a concrete non-diff input. -/
theorem c8_witness :
    parseDiff [lineOf "hello", lineOf "world"] = [] :=
  (c8_total_and_bounded [lineOf "hello", lineOf "world"]).2 (by decide)

/-! ## Claim C10: file paths of emitted entries -/

theorem run_suppress (ls : List Line) (s : PState)
    (hcf : s.currentFile = some [])
    (hno : ∀ raw ∈ ls, isFileHeaderLine (rstripNl raw) = true →
        truthyOpt (fileHeaderPath (rstripNl raw)) = false) :
    (runLines s ls).currentFile = some [] ∧
    (runLines s ls).entries = s.entries := by
  induction ls generalizing s with
  | nil => exact ⟨hcf, rfl⟩
  | cons l ls ih =>
    have hl := hno l (List.mem_cons_self l ls)
    have hrest : ∀ raw ∈ ls, isFileHeaderLine (rstripNl raw) = true →
        truthyOpt (fileHeaderPath (rstripNl raw)) = false :=
      fun x hx => hno x (List.mem_cons_of_mem l hx)
    have hfl : flushHunk s = s := flushHunk_cf_nil hcf
    rcases step_cases s l with ⟨p, hisf, hp, hstep⟩ | ⟨g, _, hm, hstep⟩ |
      ⟨_, _, hstep⟩
    · have hpnil : p = [] := by
        have ht := hl hisf
        rw [hp] at ht
        simpa [truthyOpt, List.isEmpty_iff] using ht
      subst hpnil
      simp only [runLines, List.foldl_cons]
      rw [hstep, hfl]
      exact ih { s with currentFile := some [] } rfl hrest
    · simp only [runLines, List.foldl_cons]
      rw [hstep, hfl]
      have := ih (openHunk s (rstripNl l) g) (by simp [openHunk, hcf]) hrest
      simpa [openHunk] using this
    · simp only [runLines, List.foldl_cons]
      rw [hstep]
      unfold appendLine
      split
      · exact ih s hcf hrest
      · have := ih { s with hunkBlock := s.hunkBlock ++ [rstripNl l] }
          (by simpa using hcf) hrest
        simpa using this

/-- Claim C10: every emitted Hunk carries a non-empty file path; a `+++ `
or `Index: ` header whose path part is empty sets the current file to the
empty string; and while the current file is the empty string, no input
free of file headers with non-empty paths can ever emit a hunk. -/
theorem c10_file_paths :
    (∀ lines, ∀ e ∈ parseDiff lines, e.file ≠ []) ∧
    (∀ (s : PState) (raw : Line), isFileHeaderLine (rstripNl raw) = true →
       fileHeaderPath (rstripNl raw) = some [] →
       (step s raw).currentFile = some []) ∧
    (∀ (s : PState) (ls : List Line), s.currentFile = some [] →
       (∀ raw ∈ ls, isFileHeaderLine (rstripNl raw) = true →
          truthyOpt (fileHeaderPath (rstripNl raw)) = false) →
       (flushHunk (runLines s ls)).entries = s.entries) := by
  refine ⟨fun lines e h => (parseDiff_wf lines e h).1, ?_, ?_⟩
  · intro s raw hisf hp
    rcases step_cases s raw with ⟨p, _, hp2, hstep⟩ | ⟨g, hf, _, _⟩ |
      ⟨hf, _, _⟩
    · rw [hstep]
      rw [hp2] at hp
      injection hp with hp
      rw [hp]
    · rw [hf] at hisf
      exact absurd hisf (by simp)
    · rw [hf] at hisf
      exact absurd hisf (by simp)
  · intro s ls hcf hno
    obtain ⟨h1, h2⟩ := run_suppress ls s hcf hno
    rw [flushHunk_cf_nil h1]
    exact h2

/-- Witness for `c10_file_paths` at concrete inputs: an emitted file path
is non-empty, the bare `+++ ` header sets the current file to the empty
string, and from that state a hunk header plus content line emit nothing.
-/
theorem c10_witness :
    (⟨0, lineOf "f", lineOf "1", lineOf "@@ -1 +1 @@",
      [lineOf "@@ -1 +1 @@"]⟩ : Entry).file ≠ [] ∧
    (step initState (lineOf "+++ ")).currentFile = some [] ∧
    (flushHunk (runLines ⟨some [], [], none, none, 0, []⟩
      [lineOf "@@ -1 +2 @@", lineOf "x"])).entries = [] :=
  ⟨c10_file_paths.1 [lineOf "+++ b/f", lineOf "@@ -1 +1 @@"] _ (by decide),
   c10_file_paths.2.1 initState (lineOf "+++ ") (by decide) (by decide),
   c10_file_paths.2.2 ⟨some [], [], none, none, 0, []⟩
     [lineOf "@@ -1 +2 @@", lineOf "x"] rfl (by decide)⟩

/-! ## Claim C4: round-trip between emitted bodies and input slices -/

theorem truthy_some {o : Option Line} (h : truthyOpt o = true) :
    ∃ cf, o = some cf ∧ cf ≠ [] := by
  cases o with
  | none => exact absurd h (by simp [truthyOpt])
  | some l =>
    refine ⟨l, rfl, ?_⟩
    simpa [truthyOpt, List.isEmpty_iff] using h

theorem flushHunk_emits {s : PState} {cf sl hh : Line}
    (hcf : s.currentFile = some cf) (hsl : s.hunkStartLine = some sl)
    (hhh : s.hunkHeader = some hh) (hb : s.hunkBlock ≠ [])
    (hcfne : cf ≠ []) (hhne : hh ≠ []) :
    flushHunk s =
      { currentFile := s.currentFile
        hunkBlock := []
        hunkStartLine := none
        hunkHeader := none
        hunkId := s.hunkId + 1
        entries := s.entries ++ [⟨s.hunkId, cf, sl, hh, s.hunkBlock⟩] } := by
  rcases s with ⟨cf', blk, sl', hh', i, es⟩
  simp only at hcf hsl hhh hb
  subst hcf
  subst hsl
  subst hhh
  simp only [flushHunk]
  rw [if_pos ⟨hb, hcfne, hhne⟩]

theorem runLines_cons (s : PState) (l : Line) (ls : List Line) :
    runLines s (l :: ls) = runLines (step s l) ls := rfl

theorem goodLines_cons (seen : Bool) (raw : Line) (ls : List Line) :
    goodLines seen (raw :: ls) =
      (if isFileHeaderLine (rstripNl raw) then
        (match fileHeaderPath (rstripNl raw) with
         | some p => !p.isEmpty
         | none => false) && goodLines true ls
      else
        match hunkMatch (rstripNl raw) with
        | some _ => seen && goodLines seen ls
        | none => goodLines seen ls) := rfl

theorem specSlices_cons (raw : Line) (ls : List Line)
    (cur : Option (List Line)) :
    specSlices (raw :: ls) cur =
      (if isFileHeaderLine (rstripNl raw) then
        emitCur cur ++ specSlices ls none
      else
        match hunkMatch (rstripNl raw) with
        | some _ => emitCur cur ++ specSlices ls (some [rstripNl raw])
        | none =>
          match cur with
          | some b => specSlices ls (some (b ++ [rstripNl raw]))
          | none => specSlices ls none) := rfl

theorem run_slices (ls : List Line) (s : PState) (seen : Bool)
    (cur : Option (List Line))
    (hgood : goodLines seen ls = true)
    (hrel : SliceRel s seen cur) :
    (flushHunk (runLines s ls)).entries.map Entry.body =
      s.entries.map Entry.body ++ specSlices ls cur := by
  induction ls generalizing s seen cur with
  | nil =>
    cases cur with
    | none =>
      have hb := hrel.1.1
      simp only [runLines, List.foldl_nil]
      rw [flushHunk_block_empty hb]
      simp [specSlices, emitCur]
    | some b =>
      obtain ⟨⟨hb, hbne, hsl, hh, hhh, hhne⟩, htr, hse⟩ := hrel
      obtain ⟨sl, hsl'⟩ := Option.isSome_iff_exists.mp hsl
      obtain ⟨cf, hcf, hcfne⟩ := truthy_some (htr (hse rfl))
      simp only [runLines, List.foldl_nil]
      rw [flushHunk_emits hcf hsl' hhh (hb ▸ hbne) hcfne hhne]
      simp [specSlices, emitCur, hb]
  | cons l ls ih =>
    rw [runLines_cons]
    rcases step_cases s l with ⟨p, hisf, hp, hstep⟩ | ⟨g, hisf, hm, hstep⟩ |
      ⟨hisf, hm, hstep⟩
    · -- file header line
      rw [goodLines_cons, if_pos hisf] at hgood
      simp only [hp] at hgood
      rw [Bool.and_eq_true] at hgood
      obtain ⟨hpne, hg⟩ := hgood
      rw [specSlices_cons, if_pos hisf]
      rw [hstep]
      cases cur with
      | none =>
        have hfl : flushHunk s = s := flushHunk_block_empty hrel.1.1
        rw [hfl]
        have hrel' : SliceRel { s with currentFile := some p } true none :=
          ⟨hrel.1, by intro _; simpa [truthyOpt] using hpne, by simp⟩
        refine (ih _ true none hg hrel').trans ?_
        simp [emitCur]
      | some b =>
        obtain ⟨⟨hb, hbne, hsl, hh, hhh, hhne⟩, htr, hse⟩ := hrel
        obtain ⟨sl, hsl'⟩ := Option.isSome_iff_exists.mp hsl
        obtain ⟨cf, hcf, hcfne⟩ := truthy_some (htr (hse rfl))
        rw [flushHunk_emits hcf hsl' hhh (hb ▸ hbne) hcfne hhne]
        have hrel' : SliceRel
            { currentFile := some p
              hunkBlock := []
              hunkStartLine := none
              hunkHeader := none
              hunkId := s.hunkId + 1
              entries := s.entries ++ [⟨s.hunkId, cf, sl, hh, s.hunkBlock⟩] }
            true none :=
          ⟨⟨rfl, rfl, rfl⟩, by intro _; simpa [truthyOpt] using hpne, by simp⟩
        refine (ih _ true none hg hrel').trans ?_
        simp [emitCur, hb]
    · -- hunk header line
      have hisf' : ¬ isFileHeaderLine (rstripNl l) = true := by simp [hisf]
      rw [goodLines_cons, if_neg hisf'] at hgood
      simp only [hm] at hgood
      rw [Bool.and_eq_true] at hgood
      obtain ⟨hseen, hg⟩ := hgood
      rw [specSlices_cons, if_neg hisf']
      simp only [hm]
      rw [hstep]
      have hlne : rstripNl l ≠ [] := by
        obtain ⟨rest, hr⟩ := hunkMatch_shape hm
        rw [hr]
        simp
      cases cur with
      | none =>
        have hfl : flushHunk s = s := flushHunk_block_empty hrel.1.1
        rw [hfl]
        have hrel' : SliceRel (openHunk s (rstripNl l) g) seen
            (some [rstripNl l]) := by
          refine ⟨⟨?_, by simp, by simp [openHunk],
                   ⟨rstripNl l, by simp [openHunk], hlne⟩⟩, ?_, fun _ => hseen⟩
          · simp [openHunk, hrel.1.1]
          · intro hs
            simpa [openHunk, truthyOpt] using hrel.2.1 hs
        refine (ih _ seen (some [rstripNl l]) hg hrel').trans ?_
        simp [openHunk, emitCur]
      | some b =>
        obtain ⟨⟨hb, hbne, hsl, hh, hhh, hhne⟩, htr, hse⟩ := hrel
        obtain ⟨sl, hsl'⟩ := Option.isSome_iff_exists.mp hsl
        obtain ⟨cf, hcf, hcfne⟩ := truthy_some (htr (hse rfl))
        rw [flushHunk_emits hcf hsl' hhh (hb ▸ hbne) hcfne hhne]
        have hrel' : SliceRel (openHunk
            { currentFile := s.currentFile
              hunkBlock := []
              hunkStartLine := none
              hunkHeader := none
              hunkId := s.hunkId + 1
              entries := s.entries ++ [⟨s.hunkId, cf, sl, hh, s.hunkBlock⟩] }
            (rstripNl l) g) seen (some [rstripNl l]) := by
          refine ⟨⟨by simp [openHunk], by simp, by simp [openHunk],
                   ⟨rstripNl l, by simp [openHunk], hlne⟩⟩, ?_, fun _ => hseen⟩
          intro _
          simp [openHunk, truthyOpt, List.isEmpty_iff, hcf, hcfne]
        refine (ih _ seen (some [rstripNl l]) hg hrel').trans ?_
        simp [openHunk, emitCur, hb]
    · -- ordinary line
      have hisf' : ¬ isFileHeaderLine (rstripNl l) = true := by simp [hisf]
      rw [goodLines_cons, if_neg hisf'] at hgood
      simp only [hm] at hgood
      rw [specSlices_cons, if_neg hisf']
      simp only [hm]
      rw [hstep]
      cases cur with
      | none =>
        have hb := hrel.1.1
        have hap : appendLine s (rstripNl l) = s := by
          unfold appendLine
          rw [if_pos (by simpa [List.isEmpty_iff] using hb)]
        rw [hap]
        refine (ih _ seen none hgood hrel).trans ?_
        simp
      | some b =>
        obtain ⟨⟨hb, hbne, hsl, hh, hhh, hhne⟩, htr, hse⟩ := hrel
        have hap : appendLine s (rstripNl l) =
            { s with hunkBlock := s.hunkBlock ++ [rstripNl l] } := by
          unfold appendLine
          rw [if_neg (by simp [List.isEmpty_iff, hb, hbne])]
        rw [hap]
        have hrel' : SliceRel
            { s with hunkBlock := s.hunkBlock ++ [rstripNl l] }
            seen (some (b ++ [rstripNl l])) := by
          refine ⟨⟨by simp [hb], by simp, by simpa using hsl,
                   ⟨hh, by simpa using hhh, hhne⟩⟩, ?_, fun _ => hse rfl⟩
          intro hs
          simpa using htr hs
        refine (ih _ seen (some (b ++ [rstripNl l])) hgood hrel').trans ?_
        simp

/-- Claim C4 (amended): on every input in which each file header carries a
non-empty path and every hunk header is preceded by some file header, the
bodies of the emitted Hunks are exactly, line for line and in id order,
the slices of the (newline-stripped) input running from each hunk header
line up to but not including the next file header, hunk header, or end of
input; consequently the persisted blob texts are those slices joined by
newlines, in order. -/
theorem c4_roundtrip (lines : List Line)
    (hgood : goodLines false lines = true) :
    (parseDiff lines).map Entry.body = specSlices lines none ∧
    (parseDiff lines).map (fun e => joinNl e.body) =
      (specSlices lines none).map joinNl := by
  have h := run_slices lines initState false none hgood
    (by refine ⟨⟨rfl, rfl, rfl⟩, ?_, ?_⟩ <;> simp)
  have h1 : (parseDiff lines).map Entry.body = specSlices lines none := by
    simpa [parseDiff, initState] using h
  refine ⟨h1, ?_⟩
  rw [← h1, List.map_map]
  rfl

/-- Witness for `c4_roundtrip` on a small well-formed diff. -/
theorem c4_witness :
    (parseDiff [lineOf "+++ b/f", lineOf "@@ -1 +2 @@", lineOf "x"]).map
        Entry.body =
      specSlices [lineOf "+++ b/f", lineOf "@@ -1 +2 @@", lineOf "x"] none :=
  (c4_roundtrip [lineOf "+++ b/f", lineOf "@@ -1 +2 @@", lineOf "x"]
    (by decide)).1

/-- Claim C4, counterexample: on the input
`@@ -1,1 +2,2 @@` / `ctx` / `+++ b/foo` / `more` the single emitted blob
holds three lines, while the slice from its header line up to the next
boundary (the `+++` file header) holds only two, so the claimed universal
round-trip fails. -/
theorem c4_counterexample :
    (parseDiff [lineOf "@@ -1,1 +2,2 @@", lineOf "ctx", lineOf "+++ b/foo",
        lineOf "more"]).map Entry.body =
      [[lineOf "@@ -1,1 +2,2 @@", lineOf "ctx", lineOf "more"]] ∧
    specSlices [lineOf "@@ -1,1 +2,2 @@", lineOf "ctx", lineOf "+++ b/foo",
        lineOf "more"] none =
      [[lineOf "@@ -1,1 +2,2 @@", lineOf "ctx"]] ∧
    (parseDiff [lineOf "@@ -1,1 +2,2 @@", lineOf "ctx", lineOf "+++ b/foo",
        lineOf "more"]).map Entry.body ≠
      specSlices [lineOf "@@ -1,1 +2,2 @@", lineOf "ctx", lineOf "+++ b/foo",
        lineOf "more"] none := by decide

/-! ## Selection pipeline lemmas -/

theorem natCharsAux_digits (fuel : Nat) :
    ∀ (n : Nat), ∀ c ∈ natCharsAux fuel n, c.isDigit = true := by
  induction fuel with
  | zero =>
    intro n c hc
    simp [natCharsAux] at hc
  | succ fuel ih =>
    intro n c hc
    have hd : ∀ m, m < 10 → (Nat.digitChar m).isDigit = true := by decide
    rw [natCharsAux] at hc
    split at hc
    · next h =>
        rcases List.mem_singleton.mp hc with rfl
        exact hd n h
    · rcases List.mem_append.mp hc with h1 | h1
      · exact ih _ c h1
      · rcases List.mem_singleton.mp h1 with rfl
        exact hd _ (Nat.mod_lt _ (by omega))

theorem natChars_digits (n : Nat) : ∀ c ∈ natChars n, c.isDigit = true :=
  natCharsAux_digits (n + 1) n

theorem natChars_ne_nil (n : Nat) : natChars n ≠ [] := by
  unfold natChars natCharsAux
  split
  · simp
  · simp

theorem digit_not_space {c : Char} (h : c.isDigit = true) :
    isPySpace c = false := by
  cases hip : isPySpace c
  · rfl
  · exfalso
    simp only [isPySpace, Bool.or_eq_true, beq_iff_eq] at hip
    rcases hip with ((((h1 | h1) | h1) | h1) | h1) | h1 <;> subst h1 <;>
      exact absurd h (by decide)

theorem digit_ne_tab {c : Char} (h : c.isDigit = true) : c ≠ '\t' := by
  intro he
  subst he
  exact absurd h (by decide)

theorem digit_ne_colon {c : Char} (h : c.isDigit = true) : c ≠ ':' := by
  intro he
  subst he
  exact absurd h (by decide)

theorem dropWhile_of_head_false {p : Char → Bool} {c : Char} (t : Line)
    (hc : p c = false) : (c :: t).dropWhile p = c :: t := by
  simp [List.dropWhile_cons, hc]

/-- Stripping a line that starts and ends with non-whitespace characters
and carries one trailing newline recovers the line. -/
theorem pyStrip_nl {c d : Char} (x mid : Line) (hx : x = c :: mid ++ [d])
    (hc : isPySpace c = false) (hd2 : isPySpace d = false) :
    pyStrip (x ++ ['\n']) = x := by
  subst hx
  unfold pyStrip
  rw [show (c :: mid ++ [d]) ++ ['\n'] = c :: (mid ++ [d, '\n']) by simp]
  rw [dropWhile_of_head_false _ hc]
  rw [show (c :: (mid ++ [d, '\n'])).reverse =
        '\n' :: d :: (mid.reverse ++ [c]) by simp]
  rw [show ('\n' :: d :: (mid.reverse ++ [c])).dropWhile isPySpace =
        (d :: (mid.reverse ++ [c])).dropWhile isPySpace from by
      rw [List.dropWhile_cons, if_pos (by decide)]]
  rw [dropWhile_of_head_false _ hd2]
  simp

theorem splitOnChar_append_sep (sep : Char) (a r : Line) (ha : sep ∉ a) :
    splitOnChar sep (a ++ sep :: r) = a :: splitOnChar sep r := by
  induction a with
  | nil => simp [splitOnChar]
  | cons c cs ih =>
    have hc : ¬ c = sep := by
      intro h
      exact ha (h ▸ List.mem_cons_self c cs)
    have ha' : sep ∉ cs := fun h => ha (List.mem_cons_of_mem _ h)
    rw [List.cons_append]
    show (if c == sep then [] :: splitOnChar sep (cs ++ sep :: r)
          else match splitOnChar sep (cs ++ sep :: r) with
               | [] => [[c]]
               | g :: gs => (c :: g) :: gs) = (c :: cs) :: splitOnChar sep r
    rw [if_neg (by simpa using hc)]
    rw [ih ha']

theorem splitFirstColon_append (fp r : Line) (h : ':' ∉ fp) :
    splitFirstColon (fp ++ ':' :: r) = some (fp, r) := by
  induction fp with
  | nil => simp [splitFirstColon]
  | cons c cs ih =>
    have hc : ¬ c = ':' := by
      intro hc
      exact h (hc ▸ List.mem_cons_self c cs)
    have h' : ':' ∉ cs := fun hx => h (List.mem_cons_of_mem _ hx)
    rw [List.cons_append]
    show (if c == ':' then some ([], cs ++ ':' :: r)
          else (splitFirstColon (cs ++ ':' :: r)).map
            (fun p => (c :: p.1, p.2))) = some (c :: cs, r)
    rw [if_neg (by simpa using hc)]
    rw [ih h']
    rfl

theorem pyDigitShape_digits {l : Line} (hd : ∀ c ∈ l, c.isDigit = true) :
    pyDigitShape l true = true := by
  induction l with
  | nil => rfl
  | cons c cs ih =>
    have hc := hd c (List.mem_cons_self c cs)
    show (if c.isDigit then pyDigitShape cs true
          else if c == '_' then true && pyDigitShape cs false else false) = true
    rw [if_pos hc]
    exact ih (fun x hx => hd x (List.mem_cons_of_mem _ hx))

theorem pyStrip_of_all {l : Line} (h : ∀ c ∈ l, isPySpace c = false) :
    pyStrip l = l := by
  have hdw : ∀ (m : Line), (∀ c ∈ m, isPySpace c = false) →
      m.dropWhile isPySpace = m := by
    intro m hm
    cases m with
    | nil => rfl
    | cons c cs => exact dropWhile_of_head_false _ (hm c (List.mem_cons_self c cs))
  unfold pyStrip
  rw [hdw l h]
  rw [hdw l.reverse (fun c hc => h c (List.mem_reverse.mp hc))]
  simp

theorem pyInt_digits {l : Line} (hne : l ≠ []) (hd : ∀ c ∈ l, c.isDigit = true) :
    pyInt l = some (Int.ofNat (digitsVal l)) := by
  have hstrip : pyStrip l = l :=
    pyStrip_of_all (fun c hc => digit_not_space (hd c hc))
  have hshape : pyDigitShape l true = true := pyDigitShape_digits hd
  have hfil : l.filter Char.isDigit = l := List.filter_eq_self.mpr hd
  cases l with
  | nil => exact absurd rfl hne
  | cons c cs =>
    have hc := hd c (List.mem_cons_self c cs)
    have hcp : c ≠ '+' := by
      intro h
      subst h
      exact absurd hc (by decide)
    have hcm : c ≠ '-' := by
      intro h
      subst h
      exact absurd hc (by decide)
    simp only [pyInt, hstrip]
    split
    · next r heq => exact absurd (List.head_eq_of_cons_eq heq) hcp
    · next r heq => exact absurd (List.head_eq_of_cons_eq heq) hcm
    · show (if pyDigitShape (c :: cs) false then _ else none) = _
      have : pyDigitShape (c :: cs) false = true := by
        show (if c.isDigit then pyDigitShape cs true
              else if c == '_' then false && pyDigitShape cs false
              else false) = true
        rw [if_pos hc]
        exact pyDigitShape_digits (fun x hx => hd x (List.mem_cons_of_mem _ hx))
      rw [if_pos this, hfil]

/-! ## Claim C3: selection parse errors -/

/-- Claim C3, counterexample: the hunk header `@@\t-1\t+5 @@` (tabs are
legal `\s` whitespace) is matched and rendered into a selection line with
six tab-delimited fields.  Selecting it does not match the expected
four-field shape, yet the program still parses field two and invokes the
Navigator with exit code 0, instead of reporting an error. -/
theorem c3_counterexample :
    parseDiff [lineOf "+++ b/f", lineOf "@@\t-1\t+5 @@"] =
      [⟨0, lineOf "f", lineOf "5", lineOf "@@\t-1\t+5 @@",
        [lineOf "@@\t-1\t+5 @@"]⟩] ∧
    (splitOnChar '\t' (selectorReturn (renderEntry (lineOf "/tmp")
        ⟨0, lineOf "f", lineOf "5", lineOf "@@\t-1\t+5 @@",
         [lineOf "@@\t-1\t+5 @@"]⟩))).length = 6 ∧
    processSelection (selectorReturn (renderEntry (lineOf "/tmp")
        ⟨0, lineOf "f", lineOf "5", lineOf "@@\t-1\t+5 @@",
         [lineOf "@@\t-1\t+5 @@"]⟩)) =
      SelOutcome.nav (lineOf "f") 5 ∧
    selExitCode (SelOutcome.nav (lineOf "f") 5) = 0 := by decide

/-- Claim C3 (amended): the selection parser requires only two
tab-delimited fields, not four.  Whenever the selection line has fewer
than two tab-delimited fields, or its second field has no colon, or the
text after the first colon of the second field is not a valid integer,
the program reports the offending line, exits with code 1, and never
invokes the Navigator. -/
theorem c3_selection_errors (sel : Line)
    (h : (splitOnChar '\t' sel).length < 2 ∨
         (∃ f0 fl rest, splitOnChar '\t' sel = f0 :: fl :: rest ∧
            (splitFirstColon fl = none ∨
             ∃ fp ls, splitFirstColon fl = some (fp, ls) ∧ pyInt ls = none))) :
    processSelection sel = SelOutcome.err sel ∧
    selExitCode (processSelection sel) = 1 ∧
    ∀ fp n, processSelection sel ≠ SelOutcome.nav fp n := by
  have herr : processSelection sel = SelOutcome.err sel := by
    rcases h with hlen | ⟨f0, fl, rest, heq, hbad⟩
    · rcases hp : splitOnChar '\t' sel with _ | ⟨a, t⟩
      · simp only [processSelection, hp]
      · rcases t with _ | ⟨b, t2⟩
        · simp only [processSelection, hp]
        · rw [hp] at hlen
          simp only [List.length_cons] at hlen
          exact absurd hlen (by omega)
    · rcases hbad with hnone | ⟨fp, ls, hsplit, hint⟩
      · simp only [processSelection, heq, hnone]
      · simp only [processSelection, heq, hsplit, hint]
  refine ⟨herr, by rw [herr]; rfl, ?_⟩
  intro fp n hcon
  rw [herr] at hcon
  exact SelOutcome.noConfusion hcon

/-- Witness for `c3_selection_errors` on a selection line with a single
field. -/
theorem c3_witness :
    processSelection (lineOf "garbage") = SelOutcome.err (lineOf "garbage") :=
  (c3_selection_errors (lineOf "garbage") (Or.inl (by decide))).1

/-! ## Claim C2: values passed to the Navigator -/

/-- Claim C2, counterexample: a hunk of the file `a:b` (a legal path
captured from a `+++` header) renders into a selection line whose second
field is `a:b:2`; `split(":", 1)` cuts at the first colon, `int("b:2")`
raises, and the program reports a parse failure and exits 1 instead of
invoking the Navigator with the captured path and line. -/
theorem c2_counterexample :
    parseDiff [lineOf "+++ a:b", lineOf "@@ -1 +2 @@"] =
      [⟨0, lineOf "a:b", lineOf "2", lineOf "@@ -1 +2 @@",
        [lineOf "@@ -1 +2 @@"]⟩] ∧
    processSelection (selectorReturn (renderEntry (lineOf "/tmp")
        ⟨0, lineOf "a:b", lineOf "2", lineOf "@@ -1 +2 @@",
         [lineOf "@@ -1 +2 @@"]⟩)) =
      SelOutcome.err (renderEntry (lineOf "/tmp")
        ⟨0, lineOf "a:b", lineOf "2", lineOf "@@ -1 +2 @@",
         [lineOf "@@ -1 +2 @@"]⟩) ∧
    selExitCode (SelOutcome.err (renderEntry (lineOf "/tmp")
        ⟨0, lineOf "a:b", lineOf "2", lineOf "@@ -1 +2 @@",
         [lineOf "@@ -1 +2 @@"]⟩)) = 1 := by decide

/-- Claim C2 (amended): for every emitted hunk whose captured file path
contains no colon and no tab, selecting its rendered line makes the
program invoke the Navigator with exactly the captured file path and the
numeric value of the captured start line; paths containing a colon
instead produce a selection parse failure (see `c2_counterexample`). -/
theorem c2_navigator_exact (lines : List Line) (tempDir : Line) (e : Entry)
    (he : e ∈ parseDiff lines)
    (hcol : ':' ∉ e.file) (htab : '\t' ∉ e.file) :
    processSelection (selectorReturn (renderEntry tempDir e)) =
      SelOutcome.nav e.file (Int.ofNat (digitsVal e.startLine)) := by
  obtain ⟨hfile, hmatch, _⟩ := parseDiff_wf lines e he
  obtain ⟨hslne, hsldig⟩ := hunkMatch_digits hmatch
  obtain ⟨h0, t0, hnat⟩ : ∃ h0 t0, natChars e.id = h0 :: t0 := by
    cases hn : natChars e.id with
    | nil => exact absurd hn (natChars_ne_nil e.id)
    | cons a b => exact ⟨a, b, rfl⟩
  have hh0 : h0.isDigit = true :=
    natChars_digits e.id h0 (by rw [hnat]; exact List.mem_cons_self _ _)
  have hdata : ".txt".data = ['.', 't', 'x', 't'] := rfl
  have hshape : renderEntry tempDir e =
      h0 :: (t0 ++ '\t' :: e.file ++ ':' :: e.startLine ++ '\t' :: e.header ++
        '\t' :: tempDir ++ '/' :: natChars e.id ++ ['.', 't', 'x']) ++ ['t'] := by
    simp [renderEntry, hnat, hdata]
  have hstrip : selectorReturn (renderEntry tempDir e) = renderEntry tempDir e := by
    unfold selectorReturn
    exact pyStrip_nl _ _ hshape (digit_not_space hh0) (by decide)
  rw [hstrip]
  have htabA : '\t' ∉ natChars e.id :=
    fun hx => digit_ne_tab (natChars_digits e.id _ hx) rfl
  have htabB : '\t' ∉ e.file ++ ':' :: e.startLine := by
    intro hx
    rcases List.mem_append.mp hx with hx | hx
    · exact htab hx
    · rcases List.mem_cons.mp hx with hx | hx
      · exact absurd hx.symm (by decide)
      · exact digit_ne_tab (hsldig _ hx) rfl
  have hr : renderEntry tempDir e =
      natChars e.id ++ '\t' :: ((e.file ++ ':' :: e.startLine) ++
        '\t' :: (e.header ++ '\t' :: tempDir ++ '/' :: natChars e.id ++
          ".txt".data)) := by
    simp [renderEntry]
  have hsplit2 : splitOnChar '\t' (renderEntry tempDir e) =
      natChars e.id :: (e.file ++ ':' :: e.startLine) ::
        splitOnChar '\t' (e.header ++ '\t' :: tempDir ++ '/' :: natChars e.id ++
          ".txt".data) := by
    rw [hr, splitOnChar_append_sep _ _ _ htabA, splitOnChar_append_sep _ _ _ htabB]
  simp only [processSelection, hsplit2, splitFirstColon_append _ _ hcol,
    pyInt_digits hslne hsldig]

/-- Witness for `c2_navigator_exact` on a concrete colon-free path. -/
theorem c2_witness :
    processSelection (selectorReturn (renderEntry (lineOf "/tmp")
        ⟨0, lineOf "f", lineOf "2", lineOf "@@ -1 +2 @@",
         [lineOf "@@ -1 +2 @@"]⟩)) =
      SelOutcome.nav (lineOf "f") (Int.ofNat (digitsVal (lineOf "2"))) :=
  c2_navigator_exact [lineOf "+++ b/f", lineOf "@@ -1 +2 @@"] (lineOf "/tmp")
    ⟨0, lineOf "f", lineOf "2", lineOf "@@ -1 +2 @@", [lineOf "@@ -1 +2 @@"]⟩
    (by decide) (by decide) (by decide)
